import Mathlib

/-!
Verification of the particle filter in
`src/probabilistic_labs/lab3_particlefilter/src/particle_filter.py`.

The filter state (`ParticleFilter` in the Python source) is embedded as the
structure `PFState`; numpy floating-point arithmetic is modelled over `ℝ`;
the random draws consumed by `__init__`, `predict` and `resample` are passed
as explicit arguments.  Two helper functions of the repository,
`angle_wrap` and `get_polar_line`, come from `probabilistic_lib.functions`
which is not under `src/`; they are modelled from the spec (see their doc
comments).  All other definitions are translated directly from the source.
-/

open Real

/-- A line segment `[x1 y1 x2 y2]`, the row format used for both map lines
and observed lines in the source. -/
structure Line where
  x1 : ℝ
  y1 : ℝ
  x2 : ℝ
  y2 : ℝ

/-- The state held by the Python class `ParticleFilter`: the configuration
copied in `__init__` (map, particle count, four noise parameters) and the
mutable arrays `p_wei`, `p_ang`, `p_xy` plus the `moving` and `n_eff` flags. -/
structure PFState where
  map : List Line
  num : ℕ
  odom_lin_sigma : ℝ
  odom_ang_sigma : ℝ
  meas_rng_noise : ℝ
  meas_ang_noise : ℝ
  p_wei : List ℝ
  p_ang : List ℝ
  p_xy : List (ℝ × ℝ)
  moving : Bool
  n_eff : ℝ

/-- Modelled from the spec: `angle_wrap` is imported from
`probabilistic_lib.functions`, which is not under `src/`.  The spec (data
model and §4.1) says headings are "normalized to (−π, π]" / "re-wrap heading
to (−π, π]", so the wrap subtracts the unique multiple of 2π landing in
that interval. -/
noncomputable def angle_wrap (t : ℝ) : ℝ :=
  t - 2 * π * ((⌈(t - π) / (2 * π)⌉ : ℤ) : ℝ)

/-- Modelled from numpy's `arctan2` (used on line 163 of the source): the
argument of the complex number `x + y·i`, valued in (−π, π]. -/
noncomputable def atan2 (y x : ℝ) : ℝ :=
  Complex.arg ((x : ℂ) + (y : ℂ) * Complex.I)

/-- Modelled from the spec: `get_polar_line` comes from
`probabilistic_lib.functions`, which is not under `src/`.  The spec (§4.2 and
glossary) describes it as expressing "a line segment ... as (range, bearing)
relative to an observer pose": the distance from the observer to the
infinite line through the segment, and the direction of the perpendicular
foot relative to the observer's heading.  No theorem below depends on its
internals; it is carried opaquely through `weight`. -/
noncomputable def get_polar_line (l : Line) (odom : ℝ × ℝ × ℝ) : ℝ × ℝ :=
  ((|(l.x1 - odom.1) * (l.y2 - l.y1) - (l.y1 - odom.2.1) * (l.x2 - l.x1)| /
      Real.sqrt ((l.x2 - l.x1) ^ 2 + (l.y2 - l.y1) ^ 2)),
    angle_wrap
      (atan2
        (l.y1 - odom.2.1 +
          (((odom.1 - l.x1) * (l.x2 - l.x1) + (odom.2.1 - l.y1) * (l.y2 - l.y1)) /
            ((l.x2 - l.x1) ^ 2 + (l.y2 - l.y1) ^ 2)) * (l.y2 - l.y1))
        (l.x1 - odom.1 +
          (((odom.1 - l.x1) * (l.x2 - l.x1) + (odom.2.1 - l.y1) * (l.y2 - l.y1)) /
            ((l.x2 - l.x1) ^ 2 + (l.y2 - l.y1) ^ 2)) * (l.x2 - l.x1)) -
        odom.2.2))

/-- Segment length as computed on lines 114–115 of the source:
`sqrt((y1-y2)² + (x2-x1)²)`. -/
noncomputable def lineLen (l : Line) : ℝ :=
  Real.sqrt ((l.y1 - l.y2) ^ 2 + (l.x2 - l.x1) ^ 2)

/-- `np.max` over a list: the maximum of a non-empty list (Python raises on
an empty array; that case is given the junk value 0). -/
noncomputable def npmax : List ℝ → ℝ
  | [] => 0
  | a :: rest => rest.foldl max a

/-- The range factor of line 109 of the source:
`val_rng * exp(-(d²)/(2*meas_rng_noise*meas_rng_noise))` where
`val_rng = 1/(meas_rng_noise*sqrt(2π))`. -/
noncomputable def wr_fac (s : PFState) (d : ℝ) : ℝ :=
  (1 / (s.meas_rng_noise * Real.sqrt (2 * π))) *
    Real.exp (-(d ^ 2) / (2 * s.meas_rng_noise * s.meas_rng_noise))

/-- The bearing factor of line 110 of the source:
`val_ang * exp(-(d²)/(2*meas_rng_noise*meas_rng_noise))` where
`val_ang = 1/(meas_ang_noise*sqrt(2π))`.  Note the exponent divides by
`meas_rng_noise` squared, exactly as the source does. -/
noncomputable def wt_fac (s : PFState) (d : ℝ) : ℝ :=
  (1 / (s.meas_ang_noise * Real.sqrt (2 * π))) *
    Real.exp (-(d ^ 2) / (2 * s.meas_rng_noise * s.meas_rng_noise))

/-- The Gaussian density factor in the spec's words (§4.2): "a Gaussian
density on the ... difference (standard deviation = ...)", with scale
`sigma` both in the normalizing constant and in the exponent. -/
noncomputable def specGaussian (sigma d : ℝ) : ℝ :=
  (1 / (sigma * Real.sqrt (2 * π))) * Real.exp (-(d ^ 2) / (2 * sigma ^ 2))

/-- The per-observed-line factor multiplied into a particle's weight
(lines 106–120 of the source): for each map line, the product
`wr * wt` of the two Gaussian factors on the polar differences, forced to 0
when the map segment is shorter than the observed segment (lines 113–118),
and then `np.max` over all map lines (line 120). -/
noncomputable def lineFactor (s : PFState) (pose : ℝ × ℝ × ℝ) (obs : Line) : ℝ :=
  npmax (s.map.map (fun ml =>
    if lineLen ml < lineLen obs then 0
    else
      wr_fac s ((get_polar_line obs (0, 0, 0)).1 - (get_polar_line ml pose).1) *
        wt_fac s ((get_polar_line obs (0, 0, 0)).2 - (get_polar_line ml pose).2)))

/-- The raw (pre-normalization) weights after the particle loop of
`weight` (lines 96–120 of the source): particle `i`'s previous weight
multiplied by the best-association factor of every observed line. -/
noncomputable def rawWeights (s : PFState) (lines : List Line) : List ℝ :=
  (List.range s.num).map (fun i =>
    lines.foldl
      (fun w obs =>
        w * lineFactor s ((s.p_xy.getD i (0, 0)).1, (s.p_xy.getD i (0, 0)).2,
          s.p_ang.getD i 0) obs)
      (s.p_wei.getD i 0))

/-- `ParticleFilter.weight` (lines 85–125 of the source): update the raw
weights, then divide by their sum (line 123, performed unconditionally) and
recompute `n_eff = 1/Σ w²` from the normalized weights (line 125). -/
noncomputable def PFState.weight (s : PFState) (lines : List Line) : PFState :=
  { s with
    p_wei := (rawWeights s lines).map (fun x => x / (rawWeights s lines).sum),
    n_eff :=
      1 / (((rawWeights s lines).map (fun x => x / (rawWeights s lines).sum)).map
        (fun x => x * x)).sum }

/-- `ParticleFilter.__init__` (lines 19–52 of the source), with the random
draws passed explicitly: `randAng` are the `np.random.rand(num)` draws for
the headings (line 47, scaled by 2π, NOT wrapped and NOT centred on
`theta_init`), `randX`/`randY` the `np.random.rand(num)` draws for the
positions (lines 48–49, `x_init + 1*rand - 0.5`).  The source performs no
parameter validation; `map_xmin` … `map_ymax` are computed and discarded,
so they do not appear in the state. -/
noncomputable def pfInit (room_map : List Line) (num : ℕ)
    (odom_lin_sigma odom_ang_sigma meas_rng_noise meas_ang_noise : ℝ)
    (x_init y_init theta_init : ℝ) (randAng randX randY : List ℝ) : PFState :=
  { map := room_map
    num := num
    odom_lin_sigma := odom_lin_sigma
    odom_ang_sigma := odom_ang_sigma
    meas_rng_noise := meas_rng_noise
    meas_ang_noise := meas_ang_noise
    p_wei := List.replicate num (1 / (num : ℝ))
    p_ang := randAng.map (fun u => 2 * π * u)
    p_xy := (randX.zip randY).map (fun u => (x_init + u.1 - 1 / 2, y_init + u.2 - 1 / 2))
    moving := false
    n_eff := 0 }

/-- Unused binder warning silencer: `theta_init` is genuinely unused by the
source's `__init__` (headings are drawn over the full circle). -/
theorem pfInit_ignores_theta_init (m : List Line) (n : ℕ) (a b c d x y t1 t2 : ℝ)
    (ra rx ry : List ℝ) :
    pfInit m n a b c d x y t1 ra rx ry = pfInit m n a b c d x y t2 ra rx ry := rfl

/-- `ParticleFilter.predict` (lines 55–82 of the source), with the
`np.random.randn` draws passed explicitly in `nx`, `ny`, `nt`.  A delta that
is zero in all three components only clears `moving`; otherwise each
particle's local delta is rotated by that particle's own heading, the scaled
noise draws are added, positions are incremented, and headings are
incremented and re-wrapped. -/
noncomputable def PFState.predict (s : PFState) (odom : ℝ × ℝ × ℝ)
    (nx ny nt : List ℝ) : PFState :=
  if odom.1 = 0 ∧ odom.2.1 = 0 ∧ odom.2.2 = 0 then
    { s with moving := false }
  else
    { s with
      p_xy := ((s.p_xy.zip s.p_ang).zip (nx.zip ny)).map (fun q =>
        (q.1.1.1 + (odom.1 * Real.cos q.1.2 - odom.2.1 * Real.sin q.1.2 +
            s.odom_lin_sigma * q.2.1),
          q.1.1.2 + (odom.1 * Real.sin q.1.2 + odom.2.1 * Real.cos q.1.2 +
            s.odom_lin_sigma * q.2.2)))
      p_ang := (s.p_ang.zip nt).map (fun q =>
        angle_wrap (q.1 + (odom.2.2 + s.odom_ang_sigma * q.2)))
      moving := true }

/-- The inner `while u > c` loop of `resample` (lines 142–145 of the
source): while `c < u`, advance the pointer `m` (wrapping modulo `num`) and
add `p_wei[m]` to `c`.  `fuel` bounds the number of iterations; the Python
loop does not terminate in exactly the situations where the fuel runs out
(total weight never reaching the threshold). -/
noncomputable def advanceLoop (w : List ℝ) (num : ℕ) (u : ℝ) :
    ℕ → ℕ → ℝ → ℕ × ℝ
  | 0, m, c => (m, c)
  | fuel + 1, m, c =>
    if c < u then
      advanceLoop w num u fuel ((m + 1) % num) (c + w.getD ((m + 1) % num) 0)
    else (m, c)

/-- The `for i in range(self.num)` walk of `resample` (lines 140–147 of the
source), restricted to the index selection: for each `i` in the given list,
the threshold is `u = r + i/num`, the pointer/cumulative-sum pair is
advanced by `advanceLoop`, and the resulting pointer is recorded. -/
noncomputable def walkIndices (w : List ℝ) (num : ℕ) (r : ℝ) :
    List ℕ → ℕ → ℝ → List ℕ
  | [], _, _ => []
  | i :: rest, m, c =>
    (advanceLoop w num (r + (i : ℝ) / (num : ℝ)) (num * num + num) m c).1 ::
      walkIndices w num r rest
        (advanceLoop w num (r + (i : ℝ) / (num : ℝ)) (num * num + num) m c).1
        (advanceLoop w num (r + (i : ℝ) / (num : ℝ)) (num * num + num) m c).2

/-- The source indices chosen by `resample` (lines 136–147 of the source):
the pointer starts at `m = 0` and the cumulative sum starts at
`c = p_wei[1]` (line 137 of the source reads `c=self.p_wei[1]`). -/
noncomputable def selectIndices (w : List ℝ) (num : ℕ) (r : ℝ) : List ℕ :=
  walkIndices w num r (List.range num) 0 (w.getD 1 0)

/-- The systematic-resampling index rule in the spec's words (§4.3, for
refinement comparison with `selectIndices`): identical walk, but the
"running cumulative sum c = weight[m]" with "pointer m (starts at 0)", i.e.
the cumulative sum starts at `weight[0]`. -/
noncomputable def specSystematicIndices (w : List ℝ) (num : ℕ) (r : ℝ) : List ℕ :=
  walkIndices w num r (List.range num) 0 (w.getD 0 0)

/-- The write-back of `resample` (lines 146–147 of the source):
`ang[i]=self.p_ang[m]` / `xy[:,i]=self.p_xy[:,m]` where `ang` and `xy` are
the very arrays `self.p_ang` / `self.p_xy` (lines 134–135 bind them without
copying), so each write at position `i` is immediately visible to every
later read. -/
def aliasedCopy {β : Type} (d : β) : List β → ℕ → List ℕ → List β
  | arr, _, [] => arr
  | arr, i, m :: rest => aliasedCopy d (arr.set i (arr.getD m d)) (i + 1) rest

/-- `ParticleFilter.resample` (lines 128–152 of the source), with the
`np.random.uniform(0.0, 1.0)` draw passed explicitly as `rdraw`: the offset
is `rdraw/num`, the source indices are chosen by the cumulative walk, the
pose arrays are overwritten in place (aliased), and the weights are reset
to the uniform vector. -/
noncomputable def PFState.resample (s : PFState) (rdraw : ℝ) : PFState :=
  { s with
    p_ang := aliasedCopy 0 s.p_ang 0 (selectIndices s.p_wei s.num (rdraw / (s.num : ℝ)))
    p_xy :=
      aliasedCopy (0, 0) s.p_xy 0 (selectIndices s.p_wei s.num (rdraw / (s.num : ℝ)))
    p_wei := List.replicate s.num (1 / (s.num : ℝ)) }

/-- The elementwise product-sum `Σ wᵢ·vᵢ` used by `get_mean_particle`
(lines 160–164 of the source compute it with `np.sum` over elementwise
array products). -/
noncomputable def dotw (w v : List ℝ) : ℝ :=
  ((w.zip v).map (fun p => p.1 * p.2)).sum

/-- `ParticleFilter.get_mean_particle` (lines 155–166 of the source):
weighted mean position divided by the weight sum, and heading
`arctan2(Σ wᵢ sin θᵢ / Σ w, Σ wᵢ cos θᵢ / Σ w)`. -/
noncomputable def PFState.get_mean_particle (s : PFState) : ℝ × ℝ × ℝ :=
  (dotw s.p_wei (s.p_xy.map (fun p => p.1)) / s.p_wei.sum,
    dotw s.p_wei (s.p_xy.map (fun p => p.2)) / s.p_wei.sum,
    atan2 (dotw s.p_wei (s.p_ang.map Real.sin) / s.p_wei.sum)
      (dotw s.p_wei (s.p_ang.map Real.cos) / s.p_wei.sum))

/-! ### Helper lemmas -/

/-- Dividing each entry of a list by `t` divides the sum by `t`. -/
theorem sum_map_div (l : List ℝ) (t : ℝ) :
    (l.map (fun x => x / t)).sum = l.sum / t := by
  induction l with
  | nil => simp
  | cons a rest ih => simp [ih, add_div]

/-- `angle_wrap` always lands in the interval (−π, π]. -/
theorem angle_wrap_mem (t : ℝ) : -π < angle_wrap t ∧ angle_wrap t ≤ π := by
  have hpi : (0 : ℝ) < π := Real.pi_pos
  have h2pi : (0 : ℝ) < 2 * π := by linarith
  have h1 : (t - π) / (2 * π) ≤ ((⌈(t - π) / (2 * π)⌉ : ℤ) : ℝ) := Int.le_ceil _
  have h2 : ((⌈(t - π) / (2 * π)⌉ : ℤ) : ℝ) < (t - π) / (2 * π) + 1 :=
    Int.ceil_lt_add_one _
  have h1b : t - π ≤ 2 * π * ((⌈(t - π) / (2 * π)⌉ : ℤ) : ℝ) := by
    rw [div_le_iff h2pi] at h1
    linarith
  have h2b : 2 * π * ((⌈(t - π) / (2 * π)⌉ : ℤ) : ℝ) < t + π := by
    have h4 := mul_lt_mul_of_pos_left h2 h2pi
    have h5 : 2 * π * ((t - π) / (2 * π)) = t - π := by field_simp
    rw [mul_add, mul_one, h5] at h4
    linarith
  unfold angle_wrap
  constructor
  · linarith
  · linarith

/-- When the guard already fails, the cumulative walk stops immediately,
whatever fuel remains. -/
theorem advanceLoop_halt (w : List ℝ) (num : ℕ) (u : ℝ) (fuel m : ℕ) (c : ℝ)
    (h : ¬c < u) : advanceLoop w num u fuel m c = (m, c) := by
  cases fuel <;> simp [advanceLoop, h]

/-- The aliased write-back never changes the array length. -/
theorem aliasedCopy_length {β : Type} (d : β) :
    ∀ (idx : List ℕ) (arr : List β) (i : ℕ),
      (aliasedCopy d arr i idx).length = arr.length := by
  intro idx
  induction idx with
  | nil => intro arr i; simp [aliasedCopy]
  | cons m rest ih => intro arr i; simp [aliasedCopy, ih]

/-- Reading every position of a list through `getD` reproduces the list. -/
theorem range_map_getD (l : List ℝ) :
    (List.range l.length).map (fun i => l.getD i 0) = l := by
  apply List.ext_getElem
  · simp
  · intro i h1 h2
    simp only [List.getElem_map, List.getElem_range]
    exact List.getD_eq_getElem _ _ h2

/-- A list whose entries are all zero (as seen through `getD`) sums to 0. -/
theorem weights_zero_sum :
    ∀ w : List ℝ, (∀ j, j < w.length → w.getD j 0 = 0) → w.sum = 0 := by
  intro w
  induction w with
  | nil => intro _; simp
  | cons a rest ih =>
    intro h
    have ha : a = 0 := by simpa using h 0 (by simp)
    have hr : rest.sum = 0 := by
      refine ih fun j hj => ?_
      simpa using h (j + 1) (by simpa using hj)
    simp [ha, hr]

/-- The product-sum against a list of all-zero weights is 0. -/
theorem dotw_zero :
    ∀ (w v : List ℝ), (∀ j, j < w.length → w.getD j 0 = 0) → dotw w v = 0 := by
  intro w
  induction w with
  | nil => intro v _; simp [dotw]
  | cons a rest ih =>
    intro v h
    cases v with
    | nil => simp [dotw]
    | cons b tl =>
      have ha : a = 0 := by simpa using h 0 (by simp)
      have hr : dotw rest tl = 0 := by
        refine ih tl fun j hj => ?_
        simpa using h (j + 1) (by simpa using hj)
      simpa [dotw, ha] using hr

/-- Against one-hot weights (1 at position `k`, 0 elsewhere), the
product-sum selects entry `k` of the value list. -/
theorem onehot_dotw :
    ∀ (w v : List ℝ) (k : ℕ), v.length = w.length → k < w.length →
      w.getD k 0 = 1 → (∀ j, j < w.length → j ≠ k → w.getD j 0 = 0) →
      dotw w v = v.getD k 0 := by
  intro w
  induction w with
  | nil => intro v k _ hk; exact absurd hk (by simp)
  | cons a rest ih =>
    intro v k hlen hk h1 h0
    cases v with
    | nil => simp at hlen
    | cons b tl =>
      cases k with
      | zero =>
        have ha : a = 1 := by simpa using h1
        have hr : dotw rest tl = 0 := by
          refine dotw_zero rest tl fun j hj => ?_
          simpa using h0 (j + 1) (by simp only [List.length_cons]; omega) (by omega)
        simp only [dotw] at hr ⊢
        simp [ha, hr]
      | succ k2 =>
        have ha : a = 0 := by
          simpa using h0 0 (by simp only [List.length_cons]; omega) (by omega)
        have hr : dotw rest tl = tl.getD k2 0 := by
          refine ih tl k2 (by simp only [List.length_cons] at hlen; omega)
            (by simp only [List.length_cons] at hk; omega)
            (by simpa using h1) fun j hj hne => ?_
          simpa using h0 (j + 1) (by simp only [List.length_cons]; omega) (by omega)
        simp only [dotw] at hr ⊢
        simp [ha, hr]

/-- One-hot weights sum to 1. -/
theorem onehot_sum :
    ∀ (w : List ℝ) (k : ℕ), k < w.length → w.getD k 0 = 1 →
      (∀ j, j < w.length → j ≠ k → w.getD j 0 = 0) → w.sum = 1 := by
  intro w
  induction w with
  | nil => intro k hk; exact absurd hk (by simp)
  | cons a rest ih =>
    intro k hk h1 h0
    cases k with
    | zero =>
      have ha : a = 1 := by simpa using h1
      have hr : rest.sum = 0 := by
        refine weights_zero_sum rest fun j hj => ?_
        simpa using h0 (j + 1) (by simp only [List.length_cons]; omega) (by omega)
      simp [ha, hr]
    | succ k2 =>
      have ha : a = 0 := by
        simpa using h0 0 (by simp only [List.length_cons]; omega) (by omega)
      have hr : rest.sum = 1 :=
        ih k2 (by simp only [List.length_cons] at hk; omega) (by simpa using h1)
          fun j hj hne => by
            simpa using h0 (j + 1) (by simp only [List.length_cons]; omega) (by omega)
      simp [ha, hr]

/-! ### Concrete demonstration inputs -/

/-- A unit-length map segment from (0,0) to (1,0). -/
def demoLine : Line := ⟨0, 0, 1, 0⟩

/-- A small well-formed two-particle state (uniform weights). -/
noncomputable def demoState : PFState :=
  { map := [demoLine]
    num := 2
    odom_lin_sigma := 1
    odom_ang_sigma := 1
    meas_rng_noise := 1
    meas_ang_noise := 1
    p_wei := [1 / 2, 1 / 2]
    p_ang := [0, 0]
    p_xy := [(0, 0), (0, 0)]
    moving := false
    n_eff := 0 }

/-! ### C10: weight() modifies only the weights and n_eff -/

/-- C10: for every particle set and every non-empty observation, `weight`
modifies only the weight vector and the effective-sample-size field — the
positions, headings, particle count and map are returned unchanged. -/
theorem weight_frame (s : PFState) (lines : List Line) (h : lines ≠ []) :
    (s.weight lines).p_xy = s.p_xy ∧ (s.weight lines).p_ang = s.p_ang ∧
      (s.weight lines).num = s.num ∧ (s.weight lines).map = s.map :=
  ⟨rfl, rfl, rfl, rfl⟩

/-- Witness for C10 at a concrete two-particle state and a one-line
observation. -/
theorem weight_frame_witness :
    (demoState.weight [demoLine]).p_xy = demoState.p_xy ∧
      (demoState.weight [demoLine]).p_ang = demoState.p_ang ∧
      (demoState.weight [demoLine]).num = demoState.num ∧
      (demoState.weight [demoLine]).map = demoState.map :=
  weight_frame demoState [demoLine] (by simp)

/-! ### C5: particle count and weight normalization invariants -/

/-- C5: the particle arrays keep exactly `num` entries, the weights sum to 1
after a `weight` call whose raw weight sum is nonzero, and `resample`
resets every weight to exactly `1/num` (hence also summing to 1). -/
theorem weight_resample_invariants (s : PFState) (lines : List Line) (rdraw : ℝ)
    (hnum : 0 < s.num) (hang : s.p_ang.length = s.num) (hxy : s.p_xy.length = s.num)
    (hraw : (rawWeights s lines).sum ≠ 0) :
    (s.weight lines).p_wei.sum = 1 ∧
      (s.weight lines).p_wei.length = s.num ∧
      (s.weight lines).p_ang.length = s.num ∧
      (s.weight lines).p_xy.length = s.num ∧
      (s.resample rdraw).p_wei = List.replicate s.num (1 / (s.num : ℝ)) ∧
      (s.resample rdraw).p_wei.sum = 1 ∧
      (s.resample rdraw).p_ang.length = s.num ∧
      (s.resample rdraw).p_xy.length = s.num := by
  have hcast : ((s.num : ℝ)) ≠ 0 := Nat.cast_ne_zero.mpr hnum.ne'
  refine ⟨?_, ?_, ?_, ?_, rfl, ?_, ?_, ?_⟩
  · show ((rawWeights s lines).map (fun x => x / (rawWeights s lines).sum)).sum = 1
    rw [sum_map_div, div_self hraw]
  · show ((rawWeights s lines).map (fun x => x / (rawWeights s lines).sum)).length = s.num
    simp [rawWeights]
  · show s.p_ang.length = s.num
    exact hang
  · show s.p_xy.length = s.num
    exact hxy
  · show (List.replicate s.num (1 / (s.num : ℝ))).sum = 1
    rw [List.sum_replicate, nsmul_eq_mul, mul_one_div, div_self hcast]
  · show (aliasedCopy 0 s.p_ang 0 _).length = s.num
    rw [aliasedCopy_length]
    exact hang
  · show (aliasedCopy ((0 : ℝ), (0 : ℝ)) s.p_xy 0 _).length = s.num
    rw [aliasedCopy_length]
    exact hxy

/-- Witness for C5 at a concrete state (empty observation, so the raw
weight sum is the incoming sum 1 ≠ 0). -/
theorem weight_resample_invariants_witness :
    (demoState.weight []).p_wei.sum = 1 ∧
      (demoState.weight []).p_wei.length = demoState.num ∧
      (demoState.weight []).p_ang.length = demoState.num ∧
      (demoState.weight []).p_xy.length = demoState.num ∧
      (demoState.resample 0).p_wei =
        List.replicate demoState.num (1 / (demoState.num : ℝ)) ∧
      (demoState.resample 0).p_wei.sum = 1 ∧
      (demoState.resample 0).p_ang.length = demoState.num ∧
      (demoState.resample 0).p_xy.length = demoState.num :=
  weight_resample_invariants demoState [] 0 (by norm_num [demoState])
    (by norm_num [demoState]) (by norm_num [demoState])
    (by norm_num [rawWeights, demoState, List.range_succ])

/-! ### C7: weight() with an empty observation -/

/-- A state whose weights deliberately do not sum to 1. -/
noncomputable def demoC7 : PFState :=
  { demoState with p_wei := [1, 3] }

/-- C7 counterexample: with incoming weights [1, 3] (sum 4), `weight` with
an empty observation still renormalizes (line 123 runs unconditionally), so
the weights change — the call is not a no-op on every particle set. -/
theorem weight_empty_renormalizes : (demoC7.weight []).p_wei ≠ demoC7.p_wei := by
  have h : (demoC7.weight []).p_wei = [1 / 4, 3 / 4] := by
    show (rawWeights demoC7 []).map (fun x => x / (rawWeights demoC7 []).sum) =
      [1 / 4, 3 / 4]
    have hr : rawWeights demoC7 [] = [1, 3] := by
      norm_num [rawWeights, demoC7, demoState, List.range_succ]
    rw [hr]
    norm_num
  rw [h]
  have h2 : demoC7.p_wei = [1, 3] := rfl
  rw [h2]
  intro hc
  simp only [List.cons.injEq] at hc
  exact absurd hc.1 (by norm_num)

/-- C7 amended: `weight` with an empty observation leaves the weights
exactly unchanged whenever the incoming weights sum to 1 (the invariant the
filter maintains); in general the call renormalizes them. -/
theorem weight_empty_noop (s : PFState) (hlen : s.p_wei.length = s.num)
    (hsum : s.p_wei.sum = 1) : (s.weight []).p_wei = s.p_wei := by
  have hraw : rawWeights s [] = s.p_wei := by
    unfold rawWeights
    simp only [List.foldl_nil]
    rw [← hlen]
    exact range_map_getD s.p_wei
  show (rawWeights s []).map (fun x => x / (rawWeights s []).sum) = s.p_wei
  rw [hraw, hsum]
  simp

/-- Witness for C7's amended theorem at a concrete normalized state. -/
theorem weight_empty_noop_witness : (demoState.weight []).p_wei = demoState.p_wei :=
  weight_empty_noop demoState (by norm_num [demoState]) (by norm_num [demoState])

/-! ### C8: no validation at construction -/

/-- C8 counterexample: construction with a negative `meas_rng_noise`
succeeds and returns a fully initialized state — no ConfigurationError
exists in the source, and `__init__` performs no validation at all. -/
theorem pfInit_accepts_negative_noise :
    (pfInit [demoLine] 2 1 1 (-1) 1 0 0 0 [0, 0] [0, 0] [0, 0]).meas_rng_noise = -1 ∧
      (pfInit [demoLine] 2 1 1 (-1) 1 0 0 0 [0, 0] [0, 0] [0, 0]).p_wei =
        [1 / 2, 1 / 2] := by
  constructor
  · rfl
  · show List.replicate 2 (1 / ((2 : ℕ) : ℝ)) = [1 / 2, 1 / 2]
    norm_num [List.replicate]

/-- C8 amended: construction performs no parameter validation — even with a
non-positive noise parameter it stores the given configuration unchanged
and initializes the particle arrays normally. -/
theorem pfInit_no_validation (room_map : List Line) (num : ℕ)
    (ols oas mrn man xi yi ti : ℝ) (ra rx ry : List ℝ) (hneg : mrn ≤ 0) :
    (pfInit room_map num ols oas mrn man xi yi ti ra rx ry).map = room_map ∧
      (pfInit room_map num ols oas mrn man xi yi ti ra rx ry).num = num ∧
      (pfInit room_map num ols oas mrn man xi yi ti ra rx ry).meas_rng_noise = mrn ∧
      (pfInit room_map num ols oas mrn man xi yi ti ra rx ry).meas_ang_noise = man ∧
      (pfInit room_map num ols oas mrn man xi yi ti ra rx ry).p_wei =
        List.replicate num (1 / (num : ℝ)) ∧
      (pfInit room_map num ols oas mrn man xi yi ti ra rx ry).moving = false :=
  ⟨rfl, rfl, rfl, rfl, rfl, rfl⟩

/-- Witness for C8's amended theorem with `meas_rng_noise = −1`. -/
theorem pfInit_no_validation_witness :
    (pfInit [demoLine] 2 1 1 (-1) 1 0 0 0 [0, 0] [0, 0] [0, 0]).map = [demoLine] ∧
      (pfInit [demoLine] 2 1 1 (-1) 1 0 0 0 [0, 0] [0, 0] [0, 0]).num = 2 ∧
      (pfInit [demoLine] 2 1 1 (-1) 1 0 0 0 [0, 0] [0, 0] [0, 0]).meas_rng_noise = -1 ∧
      (pfInit [demoLine] 2 1 1 (-1) 1 0 0 0 [0, 0] [0, 0] [0, 0]).meas_ang_noise = 1 ∧
      (pfInit [demoLine] 2 1 1 (-1) 1 0 0 0 [0, 0] [0, 0] [0, 0]).p_wei =
        List.replicate 2 (1 / ((2 : ℕ) : ℝ)) ∧
      (pfInit [demoLine] 2 1 1 (-1) 1 0 0 0 [0, 0] [0, 0] [0, 0]).moving = false :=
  pfInit_no_validation [demoLine] 2 1 1 (-1) 1 0 0 0 [0, 0] [0, 0] [0, 0]
    (by norm_num)

/-! ### C1: the bearing Gaussian scale -/

/-- A state with distinct range and bearing noise parameters. -/
noncomputable def demoC1 : PFState :=
  { demoState with meas_rng_noise := 1, meas_ang_noise := 2 }

/-- C1: with `meas_rng_noise = 1` and `meas_ang_noise = 2`, the range factor
of `weight` equals the spec's Gaussian with scale `meas_rng_noise`, but the
bearing factor does NOT equal the spec's Gaussian with scale
`meas_ang_noise` — line 110 of the source divides the bearing exponent by
`meas_rng_noise²`. -/
theorem bearing_factor_uses_rng_noise :
    wr_fac demoC1 2 = specGaussian demoC1.meas_rng_noise 2 ∧
      wt_fac demoC1 2 ≠ specGaussian demoC1.meas_ang_noise 2 := by
  have hrng : demoC1.meas_rng_noise = 1 := rfl
  have hang : demoC1.meas_ang_noise = 2 := rfl
  constructor
  · unfold wr_fac specGaussian
    rw [hrng]
    norm_num
  · unfold wt_fac specGaussian
    rw [hrng, hang]
    have e1 : -((2 : ℝ) ^ 2) / (2 * 1 * 1) = -2 := by norm_num
    have e2 : -((2 : ℝ) ^ 2) / (2 * 2 ^ 2) = -(1 / 2) := by norm_num
    rw [e1, e2]
    intro hc
    have hs : (0 : ℝ) < Real.sqrt (2 * π) :=
      Real.sqrt_pos.mpr (by positivity)
    have hne : (1 / (2 * Real.sqrt (2 * π)) : ℝ) ≠ 0 := by positivity
    have hexp : Real.exp (-2) = Real.exp (-(1 / 2)) := mul_left_cancel₀ hne hc
    have := Real.exp_eq_exp.mp hexp
    norm_num at this

/-! ### C3: zero raw weight sum is divided, not reported -/

/-- An observed segment of length 5, longer than `demoLine` (length 1), so
the length gate forces every correspondence's likelihood to zero. -/
def longLine : Line := ⟨0, 0, 5, 0⟩

/-- A one-particle state over the unit map segment. -/
noncomputable def demoC3 : PFState :=
  { demoState with num := 1, p_wei := [1], p_ang := [0], p_xy := [(0, 0)] }

/-- C3: when the observed segment is longer than every map segment, every
raw weight is forced to 0, and `weight` still divides by the zero sum
(line 123) — the resulting weight vector is degenerate (all zero, summing
to 0, not 1) and no error of any kind is reported. -/
theorem weight_divides_by_zero_sum :
    (demoC3.weight [longLine]).p_wei = [0] ∧
      (demoC3.weight [longLine]).p_wei.sum = 0 := by
  have hlen1 : lineLen demoLine = 1 := by
    show Real.sqrt (((0 : ℝ) - 0) ^ 2 + ((1 : ℝ) - 0) ^ 2) = 1
    rw [show ((0 : ℝ) - 0) ^ 2 + ((1 : ℝ) - 0) ^ 2 = 1 by norm_num]
    exact Real.sqrt_one
  have hlen5 : lineLen longLine = 5 := by
    show Real.sqrt (((0 : ℝ) - 0) ^ 2 + ((5 : ℝ) - 0) ^ 2) = 5
    rw [show ((0 : ℝ) - 0) ^ 2 + ((5 : ℝ) - 0) ^ 2 = 5 ^ 2 by norm_num]
    exact Real.sqrt_sq (by norm_num)
  have hfac : ∀ pose : ℝ × ℝ × ℝ, lineFactor demoC3 pose longLine = 0 := by
    intro pose
    unfold lineFactor
    have hmap : demoC3.map = [demoLine] := rfl
    rw [hmap]
    simp only [List.map_cons, List.map_nil]
    rw [hlen1, hlen5, if_pos (by norm_num)]
    simp [npmax]
  have hraw : rawWeights demoC3 [longLine] = [0] := by
    unfold rawWeights
    have hnum : demoC3.num = 1 := rfl
    rw [hnum, show List.range 1 = [0] from rfl]
    simp only [List.map_cons, List.map_nil, List.foldl_cons, List.foldl_nil]
    rw [hfac]
    norm_num
  constructor
  · show (rawWeights demoC3 [longLine]).map
        (fun x => x / (rawWeights demoC3 [longLine]).sum) = [0]
    rw [hraw]
    norm_num
  · show ((rawWeights demoC3 [longLine]).map
        (fun x => x / (rawWeights demoC3 [longLine]).sum)).sum = 0
    rw [hraw]
    norm_num

/-! ### C6: heading wrapping -/

/-- C6 counterexample: with the uniform draw 3/4 for its single particle,
construction sets the heading to 2π·(3/4) = 3π/2, which exceeds π — the
heading does not lie in (−π, π] immediately after construction. -/
theorem pfInit_heading_not_wrapped :
    ¬((pfInit [demoLine] 1 1 1 1 1 0 0 0 [3 / 4] [0] [0]).p_ang.getD 0 0 ≤ π) := by
  have h : (pfInit [demoLine] 1 1 1 1 1 0 0 0 [3 / 4] [0] [0]).p_ang.getD 0 0 =
      2 * π * (3 / 4) := by
    show ([(3 / 4 : ℝ)].map (fun u => 2 * π * u)).getD 0 0 = 2 * π * (3 / 4)
    simp
  rw [h]
  push_neg
  have hpi := Real.pi_pos
  linarith

/-- A one-particle state for exercising `predict`. -/
noncomputable def demoC6 : PFState :=
  { demoState with num := 1, p_wei := [1], p_ang := [0], p_xy := [(0, 0)] }

/-- C6 amended: after every `predict` call with a nonzero odometry delta,
every particle's heading (read through `getD`, with in-range default 0)
lies in (−π, π]; construction itself draws headings in [0, 2π) and need not
satisfy this (see the counterexample). -/
theorem predict_wraps_heading (s : PFState) (odom : ℝ × ℝ × ℝ)
    (nx ny nt : List ℝ) (h : ¬(odom.1 = 0 ∧ odom.2.1 = 0 ∧ odom.2.2 = 0))
    (i : ℕ) :
    -π < (s.predict odom nx ny nt).p_ang.getD i 0 ∧
      (s.predict odom nx ny nt).p_ang.getD i 0 ≤ π := by
  have hpi := Real.pi_pos
  have hang : (s.predict odom nx ny nt).p_ang =
      (s.p_ang.zip nt).map (fun q =>
        angle_wrap (q.1 + (odom.2.2 + s.odom_ang_sigma * q.2))) := by
    unfold PFState.predict
    rw [if_neg h]
  rw [hang]
  by_cases hi : i < ((s.p_ang.zip nt).map (fun q =>
      angle_wrap (q.1 + (odom.2.2 + s.odom_ang_sigma * q.2)))).length
  · rw [List.getD_eq_getElem _ _ hi]
    simp only [List.getElem_map]
    exact angle_wrap_mem _
  · rw [List.getD_eq_default _ _ (by omega)]
    constructor <;> linarith

/-- Witness for C6's amended theorem: a pure-rotation delta on a
one-particle state. -/
theorem predict_wraps_heading_witness :
    -π < (demoC6.predict (0, 0, 1) [0] [0] [0]).p_ang.getD 0 0 ∧
      (demoC6.predict (0, 0, 1) [0] [0] [0]).p_ang.getD 0 0 ≤ π :=
  predict_wraps_heading demoC6 (0, 0, 1) [0] [0] [0] (by norm_num) 0

/-! ### C9: mean particle on a one-hot weight vector -/

/-- A single-particle state whose heading 3π/2 lies outside (−π, π]. -/
noncomputable def demoC9 : PFState :=
  { demoState with num := 1, p_wei := [1], p_ang := [3 * π / 2], p_xy := [(0, 0)] }

/-- C9 counterexample: with the single particle's weight 1 but heading
3π/2 ∉ (−π, π], `get_mean_particle` returns heading
`arctan2(sin(3π/2), cos(3π/2)) = −π/2`, not the particle's stored heading
3π/2 — the returned pose is not exactly the particle's pose. -/
theorem mean_particle_heading_not_exact :
    demoC9.get_mean_particle.2.2 ≠ demoC9.p_ang.getD 0 0 := by
  have hsin : Real.sin (3 * π / 2) = -1 := by
    rw [show (3 * π / 2 : ℝ) = π + π / 2 by ring, Real.sin_add]
    simp
  have hcos : Real.cos (3 * π / 2) = 0 := by
    rw [show (3 * π / 2 : ℝ) = π + π / 2 by ring, Real.cos_add]
    simp
  have hd : demoC9.get_mean_particle.2.2 = atan2 (-1) 0 := by
    show atan2 (dotw [1] ([3 * π / 2].map Real.sin) / List.sum [(1 : ℝ)])
        (dotw [1] ([3 * π / 2].map Real.cos) / List.sum [(1 : ℝ)]) = atan2 (-1) 0
    rw [show ([3 * π / 2].map Real.sin) = [(-1 : ℝ)] by rw [List.map_cons]; rw [hsin]; rfl,
      show ([3 * π / 2].map Real.cos) = [(0 : ℝ)] by rw [List.map_cons]; rw [hcos]; rfl]
    norm_num [dotw]
  have harg : atan2 (-1) 0 = -(π / 2) := by
    unfold atan2
    rw [show (((0 : ℝ) : ℂ) + ((-1 : ℝ) : ℂ) * Complex.I) = -Complex.I by push_cast; ring]
    exact Complex.arg_neg_I
  rw [hd, harg]
  have hg : demoC9.p_ang.getD 0 0 = 3 * π / 2 := by
    show ([3 * π / 2] : List ℝ).getD 0 0 = 3 * π / 2
    rfl
  rw [hg]
  intro hc
  have hpi := Real.pi_pos
  linarith

/-- C9 amended: on a particle set whose weight vector is one-hot (weight 1
at index `k`, 0 elsewhere) and whose selected particle's heading lies in
(−π, π], `get_mean_particle` returns exactly that particle's pose, the
heading being the circular mean `arctan2(Σ wᵢ sin θᵢ, Σ wᵢ cos θᵢ)`. -/
theorem mean_particle_onehot (s : PFState) (k : ℕ) (hk : k < s.p_wei.length)
    (hlenA : s.p_ang.length = s.p_wei.length)
    (hlenX : s.p_xy.length = s.p_wei.length)
    (h1 : s.p_wei.getD k 0 = 1)
    (h0 : ∀ j, j < s.p_wei.length → j ≠ k → s.p_wei.getD j 0 = 0)
    (hlo : -π < s.p_ang.getD k 0) (hhi : s.p_ang.getD k 0 ≤ π) :
    s.get_mean_particle =
      ((s.p_xy.getD k (0, 0)).1, (s.p_xy.getD k (0, 0)).2, s.p_ang.getD k 0) := by
  have hsum : s.p_wei.sum = 1 := onehot_sum s.p_wei k hk h1 h0
  have hkA : k < s.p_ang.length := by omega
  have hkX : k < s.p_xy.length := by omega
  have hx : dotw s.p_wei (s.p_xy.map (fun p => p.1)) = (s.p_xy.getD k (0, 0)).1 := by
    rw [onehot_dotw s.p_wei _ k (by simp [hlenX]) hk h1 h0]
    rw [List.getD_eq_getElem _ _ (by simpa using hkX), List.getElem_map]
    rw [List.getD_eq_getElem _ _ hkX]
  have hy : dotw s.p_wei (s.p_xy.map (fun p => p.2)) = (s.p_xy.getD k (0, 0)).2 := by
    rw [onehot_dotw s.p_wei _ k (by simp [hlenX]) hk h1 h0]
    rw [List.getD_eq_getElem _ _ (by simpa using hkX), List.getElem_map]
    rw [List.getD_eq_getElem _ _ hkX]
  have hsin : dotw s.p_wei (s.p_ang.map Real.sin) = Real.sin (s.p_ang.getD k 0) := by
    rw [onehot_dotw s.p_wei _ k (by simp [hlenA]) hk h1 h0]
    rw [List.getD_eq_getElem _ _ (by simpa using hkA), List.getElem_map]
    rw [List.getD_eq_getElem _ _ hkA]
  have hcos : dotw s.p_wei (s.p_ang.map Real.cos) = Real.cos (s.p_ang.getD k 0) := by
    rw [onehot_dotw s.p_wei _ k (by simp [hlenA]) hk h1 h0]
    rw [List.getD_eq_getElem _ _ (by simpa using hkA), List.getElem_map]
    rw [List.getD_eq_getElem _ _ hkA]
  have harg : atan2 (Real.sin (s.p_ang.getD k 0)) (Real.cos (s.p_ang.getD k 0)) =
      s.p_ang.getD k 0 := by
    unfold atan2
    rw [Complex.ofReal_sin, Complex.ofReal_cos]
    exact Complex.arg_cos_add_sin_mul_I (Set.mem_Ioc.mpr ⟨hlo, hhi⟩)
  unfold PFState.get_mean_particle
  rw [hx, hy, hsin, hcos, hsum, div_one, div_one, div_one, div_one, harg]

/-- Witness for C9's amended theorem: a single particle of weight 1 at
(5, 7) with heading 1. -/
noncomputable def demoC9w : PFState :=
  { demoState with num := 1, p_wei := [1], p_ang := [1], p_xy := [(5, 7)] }

/-- Witness for C9's amended theorem. -/
theorem mean_particle_onehot_witness :
    demoC9w.get_mean_particle =
      ((demoC9w.p_xy.getD 0 (0, 0)).1, (demoC9w.p_xy.getD 0 (0, 0)).2,
        demoC9w.p_ang.getD 0 0) :=
  mean_particle_onehot demoC9w 0 (by norm_num [demoC9w])
    (by norm_num [demoC9w]) (by norm_num [demoC9w])
    (by norm_num [demoC9w]) (by intro j hj hne; simp [demoC9w] at hj; omega)
    (by have h3 := Real.pi_gt_three
        have : demoC9w.p_ang.getD 0 0 = 1 := rfl
        rw [this]; linarith)
    (by have h3 := Real.pi_gt_three
        have : demoC9w.p_ang.getD 0 0 = 1 := rfl
        rw [this]; linarith)

/-! ### C2 and C4: the resampling walk -/

/-- One guarded step of the cumulative walk, phrased for numeral fuel. -/
theorem advanceLoop_adv2 (w : List ℝ) (num : ℕ) (u : ℝ) (fuel m : ℕ) (c : ℝ)
    (hf : fuel ≠ 0) (h : c < u) :
    advanceLoop w num u fuel m c =
      advanceLoop w num u (fuel - 1) ((m + 1) % num)
        (c + w.getD ((m + 1) % num) 0) := by
  cases fuel with
  | zero => exact absurd rfl hf
  | succ f => simp [advanceLoop, h]

/-- C2: with weights [9/10, 1/10] and offset r = 1/5 (uniform draw 2/5 over
N = 2 particles), the source's index walk — whose cumulative sum starts at
`p_wei[1]` (line 137) — selects [1, 0], while the spec's rule (cumulative
sum starting at weight[0]) selects [0, 0]. -/
theorem resample_cumsum_starts_at_weight1 :
    selectIndices [9 / 10, 1 / 10] 2 (1 / 5) = [1, 0] ∧
      specSystematicIndices [9 / 10, 1 / 10] 2 (1 / 5) = [0, 0] := by
  have e1 : advanceLoop [(9 : ℝ) / 10, 1 / 10] 2 (1 / 5) 6 0 (1 / 10) = (1, 1 / 5) := by
    rw [advanceLoop_adv2 _ _ _ _ _ _ (by norm_num) (by norm_num)]
    show advanceLoop [(9 : ℝ) / 10, 1 / 10] 2 (1 / 5) 5 1 ((1 : ℝ) / 10 + 1 / 10) =
      (1, 1 / 5)
    rw [show (1 : ℝ) / 10 + 1 / 10 = 1 / 5 by norm_num]
    exact advanceLoop_halt _ _ _ _ _ _ (by norm_num)
  have e2 : advanceLoop [(9 : ℝ) / 10, 1 / 10] 2 (7 / 10) 6 1 (1 / 5) =
      (0, 11 / 10) := by
    rw [advanceLoop_adv2 _ _ _ _ _ _ (by norm_num) (by norm_num)]
    show advanceLoop [(9 : ℝ) / 10, 1 / 10] 2 (7 / 10) 5 0 ((1 : ℝ) / 5 + 9 / 10) =
      (0, 11 / 10)
    rw [show (1 : ℝ) / 5 + 9 / 10 = 11 / 10 by norm_num]
    exact advanceLoop_halt _ _ _ _ _ _ (by norm_num)
  have e3 : advanceLoop [(9 : ℝ) / 10, 1 / 10] 2 (1 / 5) 6 0 (9 / 10) =
      (0, 9 / 10) := advanceLoop_halt _ _ _ _ _ _ (by norm_num)
  have e4 : advanceLoop [(9 : ℝ) / 10, 1 / 10] 2 (7 / 10) 6 0 (9 / 10) =
      (0, 9 / 10) := advanceLoop_halt _ _ _ _ _ _ (by norm_num)
  constructor
  · show walkIndices [(9 : ℝ) / 10, 1 / 10] 2 (1 / 5) (List.range 2) 0
      (List.getD [(9 : ℝ) / 10, 1 / 10] 1 0) = [1, 0]
    rw [show List.range 2 = [0, 1] from rfl]
    rw [show List.getD [(9 : ℝ) / 10, 1 / 10] 1 0 = 1 / 10 from rfl]
    simp only [walkIndices]
    norm_num [e1, e2]
  · show walkIndices [(9 : ℝ) / 10, 1 / 10] 2 (1 / 5) (List.range 2) 0
      (List.getD [(9 : ℝ) / 10, 1 / 10] 0 0) = [0, 0]
    rw [show List.range 2 = [0, 1] from rfl]
    rw [show List.getD [(9 : ℝ) / 10, 1 / 10] 0 0 = 9 / 10 from rfl]
    simp only [walkIndices]
    norm_num [e3, e4]

/-- A three-particle state with distinguishable headings and positions for
exercising the aliasing in `resample`. -/
noncomputable def demoC4 : PFState :=
  { demoState with
    num := 3
    p_wei := [1 / 2, 1 / 4, 1 / 4]
    p_ang := [10, 20, 30]
    p_xy := [(10, 0), (20, 0), (30, 0)] }

/-- C4: with weights [1/2, 1/4, 1/4] and uniform draw 9/10 (offset r =
3/10), the walk selects source indices [1, 2, 0]; draw 2's source index is
0, whose pre-call heading is 10, yet the new heading at position 2 is 20 —
the value written into position 0 by draw 0 — because `resample` writes
into the same arrays it reads. -/
theorem resample_aliases_pose_arrays :
    selectIndices demoC4.p_wei 3 (3 / 10) = [1, 2, 0] ∧
      demoC4.p_ang.getD 0 0 = 10 ∧
      (demoC4.resample (9 / 10)).p_ang = [20, 30, 20] := by
  have a1 : advanceLoop [(1 : ℝ) / 2, 1 / 4, 1 / 4] 3 (3 / 10) 12 0 (1 / 4) =
      (1, 1 / 2) := by
    rw [advanceLoop_adv2 _ _ _ _ _ _ (by norm_num) (by norm_num)]
    show advanceLoop [(1 : ℝ) / 2, 1 / 4, 1 / 4] 3 (3 / 10) 11 1
      ((1 : ℝ) / 4 + 1 / 4) = (1, 1 / 2)
    rw [show (1 : ℝ) / 4 + 1 / 4 = 1 / 2 by norm_num]
    exact advanceLoop_halt _ _ _ _ _ _ (by norm_num)
  have a2 : advanceLoop [(1 : ℝ) / 2, 1 / 4, 1 / 4] 3 (19 / 30) 12 1 (1 / 2) =
      (2, 3 / 4) := by
    rw [advanceLoop_adv2 _ _ _ _ _ _ (by norm_num) (by norm_num)]
    show advanceLoop [(1 : ℝ) / 2, 1 / 4, 1 / 4] 3 (19 / 30) 11 2
      ((1 : ℝ) / 2 + 1 / 4) = (2, 3 / 4)
    rw [show (1 : ℝ) / 2 + 1 / 4 = 3 / 4 by norm_num]
    exact advanceLoop_halt _ _ _ _ _ _ (by norm_num)
  have a3 : advanceLoop [(1 : ℝ) / 2, 1 / 4, 1 / 4] 3 (29 / 30) 12 2 (3 / 4) =
      (0, 5 / 4) := by
    rw [advanceLoop_adv2 _ _ _ _ _ _ (by norm_num) (by norm_num)]
    show advanceLoop [(1 : ℝ) / 2, 1 / 4, 1 / 4] 3 (29 / 30) 11 0
      ((3 : ℝ) / 4 + 1 / 2) = (0, 5 / 4)
    rw [show (3 : ℝ) / 4 + 1 / 2 = 5 / 4 by norm_num]
    exact advanceLoop_halt _ _ _ _ _ _ (by norm_num)
  have hsel : selectIndices [(1 : ℝ) / 2, 1 / 4, 1 / 4] 3 (3 / 10) = [1, 2, 0] := by
    show walkIndices [(1 : ℝ) / 2, 1 / 4, 1 / 4] 3 (3 / 10) (List.range 3) 0
      (List.getD [(1 : ℝ) / 2, 1 / 4, 1 / 4] 1 0) = [1, 2, 0]
    rw [show List.range 3 = [0, 1, 2] from rfl]
    rw [show List.getD [(1 : ℝ) / 2, 1 / 4, 1 / 4] 1 0 = 1 / 4 from rfl]
    simp only [walkIndices]
    norm_num [a1, a2, a3]
  refine ⟨hsel, rfl, ?_⟩
  show aliasedCopy 0 demoC4.p_ang 0
    (selectIndices demoC4.p_wei demoC4.num ((9 / 10) / (demoC4.num : ℝ))) =
    [20, 30, 20]
  have hnum : demoC4.num = 3 := rfl
  have hw : demoC4.p_wei = [(1 : ℝ) / 2, 1 / 4, 1 / 4] := rfl
  have ha : demoC4.p_ang = [(10 : ℝ), 20, 30] := rfl
  rw [hnum, hw, ha]
  rw [show ((9 : ℝ) / 10) / ((3 : ℕ) : ℝ) = 3 / 10 by norm_num]
  rw [hsel]
  rfl
